import Mathlib

/-!
# Verification of the corpus-api web crawler and content-extraction pipeline

Shallow embedding of `src/services/web_collector.py` (class `WebCollector`,
method `collect`) and of the service boundary
`src/services/data_collector.py` (`DataCollectorService.collect_web`).

Modelling conventions:
* Python strings are sequences of characters; the Python `str` methods used
  by the source (`startswith`, `lstrip`, `rstrip`, slicing, `split`, `strip`,
  `join`) are embedded as functions on `String.data : List Char`.
* The HTTP fetch plus HTML parse (`requests.get` + `BeautifulSoup`) is an
  abstract function `fetch : String → Option (List HNode)`: `none` models any
  exception raised while fetching/parsing the page (connection error,
  timeout, `raise_for_status`), `some soup` the parsed DOM forest.
* An HTML document (a BeautifulSoup soup) is a forest of nodes; the
  BeautifulSoup operations used by the source (`decompose` of script/style
  tags, `find`, `find_all('a', href=True)`, `get_text(separator=' ',
  strip=True)`, `.string`) are embedded as structurally recursive functions
  over that forest, matching in document (pre)order.
* `uuid.uuid4()` and `datetime.now()` produce fresh identifiers/timestamps
  with no influence on control flow; the `id`/`date`/`source`/`lang` fields
  are omitted from the embedded document record.
* The `raise HTTPException(status_code, detail)` statements are embedded as
  `Except.error` values carrying status and detail.
-/

/-! ## Python string primitives (over the character sequence) -/

/-- Python `s.startswith(p)`: `p` is a prefix of the character sequence. -/
def pyStartswith (s p : String) : Bool :=
  p.data.isPrefixOf s.data

/-- Python `s.startswith((p, q))`: any of the alternatives is a prefix. -/
def pyStartswith2 (s p q : String) : Bool :=
  pyStartswith s p || pyStartswith s q

/-- Python `s.lstrip(c)` for a single strip character. -/
def pyLstrip (s : String) (c : Char) : String :=
  ⟨s.data.dropWhile (fun d => d == c)⟩

/-- Python `s.rstrip(c)` for a single strip character. -/
def pyRstrip (s : String) (c : Char) : String :=
  ⟨(s.data.reverse.dropWhile (fun d => d == c)).reverse⟩

/-- Python slicing `s[n:]`. -/
def pySliceFrom (s : String) (n : Nat) : String :=
  ⟨s.data.drop n⟩

/-- Python `s.strip()`: remove leading and trailing whitespace. -/
def pyStrip (s : String) : String :=
  ⟨(((s.data.dropWhile Char.isWhitespace).reverse.dropWhile Char.isWhitespace).reverse)⟩

/-- Helper for Python `s.split()`: accumulate the current word (reversed)
while scanning the character list; whitespace runs separate words and
produce no empty pieces. -/
def pyWords : List Char → List Char → List String
  | [], acc => if acc.isEmpty then [] else [⟨acc.reverse⟩]
  | c :: cs, acc =>
    if c.isWhitespace then
      if acc.isEmpty then pyWords cs [] else (⟨acc.reverse⟩ : String) :: pyWords cs []
    else
      pyWords cs (c :: acc)

/-- Python `s.split()` with no argument: split on runs of whitespace,
discarding empty pieces (leading and trailing whitespace included). -/
def pySplit (s : String) : List String :=
  pyWords s.data []

/-- Python `' '.join(l)`. -/
def pyJoinSpace (l : List String) : String :=
  String.intercalate " " l

/-- `' '.join(text_content.split())` — whitespace normalization applied to
every extracted text (web_collector.py line 53). -/
def normalizeWs (s : String) : String :=
  pyJoinSpace (pySplit s)

/-! ## HTML document model and the BeautifulSoup operations used -/

/-- A parsed HTML node: an element with tag name, attributes and children,
or a text node. A soup (parsed document) is a `List HNode` — the forest of
top-level nodes, in document order. -/
inductive HNode where
  | elem (tag : String) (attrs : List (String × String)) (children : List HNode)
  | txt (s : String)

mutual
/-- `soup(['script', 'style'])` + `tag.decompose()` applied to one node:
`none` when the node is an element whose tag is in `bad` (the whole subtree
is removed), otherwise the node with decomposition applied below it. -/
def decomposeNode (bad : List String) : HNode → Option HNode
  | .txt s => some (.txt s)
  | .elem t a c =>
    if bad.contains t then none else some (.elem t a (decomposeForest bad c))

/-- Decomposition over a forest, preserving document order. -/
def decomposeForest (bad : List String) : List HNode → List HNode
  | [] => []
  | n :: rest =>
    match decomposeNode bad n with
    | none => decomposeForest bad rest
    | some n' => n' :: decomposeForest bad rest
end

mutual
/-- `find(pred)` searching a node and its descendants in document order;
only elements can match (`p` receives tag and attributes). -/
def findNode (p : String → List (String × String) → Bool) : HNode → Option HNode
  | .txt _ => none
  | .elem t a c =>
    if p t a then some (.elem t a c) else findForest p c

/-- `soup.find(pred)`: first match in document (pre)order over a forest. -/
def findForest (p : String → List (String × String) → Bool) :
    List HNode → Option HNode
  | [] => none
  | n :: rest =>
    match findNode p n with
    | some r => some r
    | none => findForest p rest
end

mutual
/-- The text-node strings below a node, in document order. -/
def nodeTexts : HNode → List String
  | .txt s => [s]
  | .elem _ _ c => forestTexts c

/-- The text-node strings of a forest, in document order. -/
def forestTexts : List HNode → List String
  | [] => []
  | n :: rest => nodeTexts n ++ forestTexts rest
end

/-- `node.get_text(separator=' ', strip=True)`: strip every text string,
drop the ones that become empty, join the rest with a single space. -/
def getText (n : HNode) : String :=
  pyJoinSpace (((nodeTexts n).map pyStrip).filter (fun w => w ≠ ""))

/-- `tag.string`: the single string below a chain of single-child elements,
`none` when the element has zero or several children. -/
def nodeString : HNode → Option String
  | .txt s => some s
  | .elem _ _ [c] => nodeString c
  | .elem _ _ _ => none

mutual
/-- `find_all('a', href=True)` on one node: the `href` attribute values of
all `a` elements with an `href` attribute, in document order. -/
def nodeHrefs : HNode → List String
  | .txt _ => []
  | .elem t a c =>
    (match (if t == "a" then a.lookup "href" else none) with
      | some v => [v]
      | none => []) ++ forestHrefs c

/-- `soup.find_all('a', href=True)` hrefs over a forest, document order. -/
def forestHrefs : List HNode → List String
  | [] => []
  | n :: rest => nodeHrefs n ++ forestHrefs rest
end

/-- `class_='content'` attribute match: BeautifulSoup splits the `class`
attribute on whitespace and matches when `c` is one of the classes. -/
def hasClass (attrs : List (String × String)) (c : String) : Bool :=
  match attrs.lookup "class" with
  | some v => (pySplit v).contains c
  | none => false

/-- Lines 37-38: `for tag in soup(['script', 'style']): tag.decompose()`. -/
def decomposeScriptStyle (soup0 : List HNode) : List HNode :=
  decomposeForest ["script", "style"] soup0

/-! ## The WebCollector.collect embedding -/

/-- The emitted document record (web_collector.py lines 56-63), with the
per-run generated `id`/`date` and the constant `source="web"` omitted.
`title` is `Option String` because `soup.title.string` can be Python `None`
when the title element does not wrap a single string. -/
structure Doc where
  url : String
  title : Option String
  text : String
deriving Repr, DecidableEq

/-- The crawl state owned by one `collect` call: result list `documents`,
FIFO frontier `urls_to_process`, `processed_urls` (a set, embedded as the
list of its members), and `processed_count`. -/
structure CrawlState where
  documents : List Doc
  frontier : List String
  visited : List String
  count : Nat
deriving Repr, DecidableEq

/-- Link resolution (web_collector.py lines 70-77): root-relative,
`./`-relative, schemeless relative, or already-absolute hrefs. -/
def resolveLink (base_url href : String) : String :=
  if pyStartswith href "/" then
    base_url ++ href
  else if pyStartswith href "./" then
    base_url ++ pySliceFrom href 1
  else if !(pyStartswith2 href "http://" "https://") then
    base_url ++ "/" ++ pyLstrip href '/'
  else
    href

/-- The link loop (web_collector.py lines 68-81): resolve every href in
order and append it to the frontier when it is in scope (`startswith
base_url`), not yet visited, and not already queued. -/
def enqueueLinks (base_url : String) (visited frontier : List String)
    (hrefs : List String) : List String :=
  hrefs.foldl (fun fr href =>
    let full_url := resolveLink base_url href
    if pyStartswith full_url base_url && !visited.contains full_url
        && !fr.contains full_url then
      fr ++ [full_url]
    else fr) frontier

/-- `soup.title.string if soup.title else current_url`
(web_collector.py line 40). -/
def pageTitle (soup : List HNode) (current_url : String) : Option String :=
  match findForest (fun t _ => t == "title") soup with
  | some tn => nodeString tn
  | none => some current_url

/-- `soup.find('article') or soup.find('main') or
soup.find('div', class_='content')` (web_collector.py line 43). -/
def mainContent (soup : List HNode) : Option HNode :=
  match findForest (fun t _ => t == "article") soup with
  | some n => some n
  | none =>
    match findForest (fun t _ => t == "main") soup with
    | some n => some n
    | none => findForest (fun t a => t == "div" && hasClass a "content") soup

/-- Lines 42-53: text of the selected content region, else of the body,
else empty — then whitespace-normalized. `soup` is the already-decomposed
forest. -/
def pageText (soup : List HNode) : String :=
  let text_content :=
    match mainContent soup with
    | some mc => getText mc
    | none =>
      match findForest (fun t _ => t == "body") soup with
      | some body => getText body
      | none => ""
  normalizeWs text_content

/-- One iteration of the `while` loop (web_collector.py lines 23-84):
`none` when the loop guard fails (empty frontier or exhausted budget),
otherwise the state after one iteration. -/
def crawlStep (fetch : String → Option (List HNode)) (base_url : String)
    (max_pages : Nat) (s : CrawlState) : Option CrawlState :=
  match s.frontier with
  | [] => none
  | current_url :: rest =>
    if s.count < max_pages then
      if s.visited.contains current_url then
        -- line 26-27: already visited, skipped without counting
        some { s with frontier := rest }
      else
        let visited := current_url :: s.visited
        let count := s.count + 1
        match fetch current_url with
        | none =>
          -- lines 83-84: any exception while fetching/processing the page
          some ⟨s.documents, rest, visited, count⟩
        | some soup0 =>
          let soup := decomposeScriptStyle soup0
          let title := pageTitle soup current_url
          let text_content := pageText soup
          if text_content = "" then
            -- empty text: no document and, in the source, no link loop
            some ⟨s.documents, rest, visited, count⟩
          else
            let documents := s.documents ++ [⟨current_url, title, text_content⟩]
            if count < max_pages then
              some ⟨documents,
                    enqueueLinks base_url visited rest (forestHrefs soup),
                    visited, count⟩
            else
              some ⟨documents, rest, visited, count⟩
    else none

/-- The `while` loop of `WebCollector.collect`, iterating `crawlStep` until
the guard fails. Termination: each iteration either increments the counter
(bounded by `max_pages`) or, on the skip branch, shortens the frontier. -/
def crawlLoop (fetch : String → Option (List HNode)) (base_url : String)
    (max_pages : Nat) (s : CrawlState) : CrawlState :=
  match h : crawlStep fetch base_url max_pages s with
  | none => s
  | some s' => crawlLoop fetch base_url max_pages s'
termination_by (max_pages - s.count, s.frontier.length)
decreasing_by
  simp only [crawlStep] at h
  rcases hf : s.frontier with _ | ⟨u, rest⟩ <;> rw [hf] at h
  · exact absurd h (by simp)
  · by_cases hc : s.count < max_pages
    · simp only [hc, if_true] at h
      by_cases hv : s.visited.contains u
      · simp only [hv, if_true] at h
        cases h
        exact Prod.Lex.right _ (by simp [hf])
      · simp only [hv, Bool.false_eq_true, if_false] at h
        have hcount : s'.count = s.count + 1 := by
          rcases hfetch : fetch u with _ | soup0 <;> rw [hfetch] at h
          · cases h; rfl
          · simp only at h
            split at h
            · cases h; rfl
            · split at h <;> (cases h; rfl)
        exact Prod.Lex.left _ _ (by omega)
    · simp [hc] at h

/-- `WebCollector.collect(url=url, max_pages=max_pages)`, lines 16-84: the
crawl-state initialization (`base_url = url.rstrip('/')`, frontier seeded
with the url, empty visited set, zero counter) followed by the while loop;
the final crawl state. -/
def collectRun (fetch : String → Option (List HNode)) (url : String)
    (max_pages : Nat) : CrawlState :=
  crawlLoop fetch (pyRstrip url '/') max_pages ⟨[], [url], [], 0⟩

/-- Lines 86-89: fail with HTTP 400 when the crawl produced no document,
otherwise return the document list. -/
def collect (fetch : String → Option (List HNode)) (url : String)
    (max_pages : Nat) : Except (Nat × String) (List Doc) :=
  let final := collectRun fetch url max_pages
  if final.documents.isEmpty then
    Except.error (400, "Не удалось извлечь текст ни с одной страницы")
  else
    Except.ok final.documents

/-- Modelled from the spec: `utils.get_full_error` is imported by
`data_collector.py` but `utils.py` is not under `src/`; per the spec the
server-error signal carries "diagnostic detail" (`app.py` defines the same
helper as `traceback.format_exc()`). Embedded as an abstract detail
string. -/
def get_full_error : String := "diagnostic traceback"

/-- `DataCollectorService.collect_web` (data_collector.py lines 62-71):
call the collector and return its documents (the JSONL `Sink` serialization
is out of scope); the bare `except Exception` catches every exception —
including the collector's own `HTTPException(400)` — and re-raises
`HTTPException(500, get_full_error())`. -/
def collect_web (fetch : String → Option (List HNode)) (url : String)
    (max_pages : Nat) : Except (Nat × String) (List Doc) :=
  match collect fetch url max_pages with
  | Except.ok documents => Except.ok documents
  | Except.error _ => Except.error (500, get_full_error)

/-- The document the loop builds for a fetched page (lines 40-63),
as a function of the URL; junk value when the fetch fails. -/
def docOf (f : String → Option (List HNode)) (u : String) : Doc :=
  match f u with
  | some soup0 =>
    ⟨u, pageTitle (decomposeScriptStyle soup0) u,
      pageText (decomposeScriptStyle soup0)⟩
  | none => ⟨u, none, ""⟩

/-- The URLs enqueued while the seed page is processed: the pages at
link-distance 1 from the seed. -/
def level1 (f : String → Option (List HNode)) (url : String) : List String :=
  match f url with
  | some soup0 =>
    enqueueLinks (pyRstrip url '/') [url] []
      (forestHrefs (decomposeScriptStyle soup0))
  | none => []

/-! ## Auxiliary predicates and concrete inputs used by the claims -/

mutual
/-- No element with a tag in `bad` occurs in the node's subtree. -/
def nodeNoBanned (bad : List String) : HNode → Bool
  | .txt _ => true
  | .elem t _ c => !bad.contains t && forestNoBanned bad c

/-- No element with a tag in `bad` occurs anywhere in the forest. -/
def forestNoBanned (bad : List String) : List HNode → Bool
  | [] => true
  | n :: rest => nodeNoBanned bad n && forestNoBanned bad rest
end

/-- Modelled from the spec: the spec's third content-region rule reads "an
element whose class is exactly `content`" with no tag restriction; this is
that selection, for comparison with the source's `find('div',
class_='content')`. -/
def specClassContentRegion (soup : List HNode) : Option HNode :=
  findForest (fun _ a => a.lookup "class" == some "content") soup

/-- The crawl-loop invariant: the frontier holds no duplicates and is
disjoint from the visited set. -/
def crawlInv (s : CrawlState) : Prop :=
  s.frontier.Nodup ∧ ∀ u ∈ s.frontier, s.visited.contains u = false

/-- States reachable from `s` by iterating the loop body. -/
def crawlReach (f : String → Option (List HNode)) (b : String) (m : Nat) :
    CrawlState → CrawlState → Prop :=
  Relation.ReflTransGen (fun s s' => crawlStep f b m s = some s')

/-- A fetch that fails on every URL (unreachable site). -/
def fetchFail : String → Option (List HNode) := fun _ => none

/-- Seed page with no extractable text but a link: `<body><a href="/b"></a></body>`. -/
def soupSeedC1 : List HNode :=
  [.elem "body" [] [.elem "a" [("href", "/b")] []]]

/-- A page with text: `<body>hello</body>`. -/
def soupPageB : List HNode :=
  [.elem "body" [] [.txt "hello"]]

/-- Site where the seed page has a link but no text, and the linked page
has text. -/
def fetchC1 : String → Option (List HNode) := fun u =>
  if u = "http://a" then some soupSeedC1
  else if u = "http://a/b" then some soupPageB
  else none

/-- `<html><body><p class="content">P</p><p>Q</p></body></html>`: a non-div
element carrying class `content`. -/
def soupC7 : List HNode :=
  [.elem "html" []
    [.elem "body" []
      [.elem "p" [("class", "content")] [.txt "P"],
       .elem "p" [] [.txt "Q"]]]]

/-- The spec scenario markup
`<script>alert(1)</script><main>Hello world</main>`. -/
def soupC8 : List HNode :=
  [.elem "script" [] [.txt "alert(1)"],
   .elem "main" [] [.txt "Hello world"]]

/-- A small tree-shaped site: seed links to `/a` and `/b`; `/a` links to
`/a/x`; all pages carry text. -/
def fetchTree : String → Option (List HNode) := fun u =>
  if u = "http://t" then
    some [.elem "body" []
      [.txt "root", .elem "a" [("href", "/a")] [], .elem "a" [("href", "/b")] []]]
  else if u = "http://t/a" then
    some [.elem "body" [] [.txt "A", .elem "a" [("href", "/a/x")] []]]
  else if u = "http://t/b" then
    some [.elem "body" [] [.txt "B"]]
  else if u = "http://t/a/x" then
    some [.elem "body" [] [.txt "X"]]
  else none

/-- The documents `collect` produces on `fetchTree` (breadth-first order). -/
def treeDocs : List Doc :=
  [⟨"http://t", some "http://t", "root"⟩,
   ⟨"http://t/a", some "http://t/a", "A"⟩,
   ⟨"http://t/b", some "http://t/b", "B"⟩,
   ⟨"http://t/a/x", some "http://t/a/x", "X"⟩]

/-! ## Loop unfolding lemmas -/

lemma crawlLoop_eq (f : String → Option (List HNode)) (b : String) (m : Nat)
    (s : CrawlState) :
    crawlLoop f b m s =
      match crawlStep f b m s with
      | none => s
      | some s' => crawlLoop f b m s' := by
  conv_lhs => rw [crawlLoop]
  cases hc : crawlStep f b m s <;> simp [hc]

lemma crawlLoop_none (f : String → Option (List HNode)) (b : String) (m : Nat)
    (s : CrawlState) (h : crawlStep f b m s = none) : crawlLoop f b m s = s := by
  rw [crawlLoop_eq, h]

lemma crawlLoop_some (f : String → Option (List HNode)) (b : String) (m : Nat)
    (s s' : CrawlState) (h : crawlStep f b m s = some s') :
    crawlLoop f b m s = crawlLoop f b m s' := by
  rw [crawlLoop_eq, h]

/-! ## crawlStep branch lemmas -/

lemma crawlStep_skip (f : String → Option (List HNode)) (b : String) (m : Nat)
    (s : CrawlState) (u : String) (rest : List String)
    (hfr : s.frontier = u :: rest) (hc : s.count < m)
    (hv : s.visited.contains u = true) :
    crawlStep f b m s = some { s with frontier := rest } := by
  have hv' : u ∈ s.visited := by simpa using hv
  simp [crawlStep, hfr, hc, hv']

lemma crawlStep_fetchFail (f : String → Option (List HNode)) (b : String) (m : Nat)
    (s : CrawlState) (u : String) (rest : List String)
    (hfr : s.frontier = u :: rest) (hc : s.count < m)
    (hv : s.visited.contains u = false) (hfetch : f u = none) :
    crawlStep f b m s = some ⟨s.documents, rest, u :: s.visited, s.count + 1⟩ := by
  have hv' : u ∉ s.visited := by simpa using hv
  simp [crawlStep, hfr, hc, hv', hfetch]

lemma crawlStep_emptyText (f : String → Option (List HNode)) (b : String) (m : Nat)
    (s : CrawlState) (u : String) (rest : List String) (soup0 : List HNode)
    (hfr : s.frontier = u :: rest) (hc : s.count < m)
    (hv : s.visited.contains u = false) (hfetch : f u = some soup0)
    (htext : pageText (decomposeScriptStyle soup0) = "") :
    crawlStep f b m s = some ⟨s.documents, rest, u :: s.visited, s.count + 1⟩ := by
  have hv' : u ∉ s.visited := by simpa using hv
  simp [crawlStep, hfr, hc, hv', hfetch, htext]

lemma crawlStep_emit (f : String → Option (List HNode)) (b : String) (m : Nat)
    (s : CrawlState) (u : String) (rest : List String) (soup0 : List HNode)
    (hfr : s.frontier = u :: rest) (hc : s.count < m)
    (hv : s.visited.contains u = false) (hfetch : f u = some soup0)
    (htext : pageText (decomposeScriptStyle soup0) ≠ "")
    (hb : s.count + 1 < m) :
    crawlStep f b m s = some
      ⟨s.documents ++ [⟨u, pageTitle (decomposeScriptStyle soup0) u,
          pageText (decomposeScriptStyle soup0)⟩],
        enqueueLinks b (u :: s.visited) rest
          (forestHrefs (decomposeScriptStyle soup0)),
        u :: s.visited, s.count + 1⟩ := by
  have hv' : u ∉ s.visited := by simpa using hv
  simp [crawlStep, hfr, hc, hv', hfetch, htext, hb]

lemma crawlStep_emitLast (f : String → Option (List HNode)) (b : String) (m : Nat)
    (s : CrawlState) (u : String) (rest : List String) (soup0 : List HNode)
    (hfr : s.frontier = u :: rest) (hc : s.count < m)
    (hv : s.visited.contains u = false) (hfetch : f u = some soup0)
    (htext : pageText (decomposeScriptStyle soup0) ≠ "")
    (hb : ¬ s.count + 1 < m) :
    crawlStep f b m s = some
      ⟨s.documents ++ [⟨u, pageTitle (decomposeScriptStyle soup0) u,
          pageText (decomposeScriptStyle soup0)⟩],
        rest, u :: s.visited, s.count + 1⟩ := by
  have hv' : u ∉ s.visited := by simpa using hv
  simp [crawlStep, hfr, hc, hv', hfetch, htext, hb]

/-- Inversion: every successful `crawlStep` is one of the five loop-body
outcomes, and in all of them the head of the frontier was popped and the
guard `count < max_pages` held. -/
lemma crawlStep_spec (f : String → Option (List HNode)) (b : String) (m : Nat)
    (s s' : CrawlState) (h : crawlStep f b m s = some s') :
    ∃ u rest, s.frontier = u :: rest ∧ s.count < m ∧
      ((s.visited.contains u = true ∧ s' = { s with frontier := rest }) ∨
       (s.visited.contains u = false ∧
        ((f u = none ∧ s' = ⟨s.documents, rest, u :: s.visited, s.count + 1⟩) ∨
         (∃ soup0, f u = some soup0 ∧
          ((pageText (decomposeScriptStyle soup0) = "" ∧
             s' = ⟨s.documents, rest, u :: s.visited, s.count + 1⟩) ∨
           (pageText (decomposeScriptStyle soup0) ≠ "" ∧ s.count + 1 < m ∧
             s' = ⟨s.documents ++ [⟨u, pageTitle (decomposeScriptStyle soup0) u,
                     pageText (decomposeScriptStyle soup0)⟩],
                   enqueueLinks b (u :: s.visited) rest
                     (forestHrefs (decomposeScriptStyle soup0)),
                   u :: s.visited, s.count + 1⟩) ∨
           (pageText (decomposeScriptStyle soup0) ≠ "" ∧ ¬ s.count + 1 < m ∧
             s' = ⟨s.documents ++ [⟨u, pageTitle (decomposeScriptStyle soup0) u,
                     pageText (decomposeScriptStyle soup0)⟩],
                   rest, u :: s.visited, s.count + 1⟩)))))) := by
  rcases hfr : s.frontier with _ | ⟨u, rest⟩
  · simp [crawlStep, hfr] at h
  · refine ⟨u, rest, rfl, ?_⟩
    by_cases hc : s.count < m
    · refine ⟨hc, ?_⟩
      by_cases hv : s.visited.contains u
      · rw [crawlStep_skip f b m s u rest hfr hc hv] at h
        exact Or.inl ⟨hv, by injection h with h; exact h.symm⟩
      · rw [Bool.not_eq_true] at hv
        refine Or.inr ⟨hv, ?_⟩
        rcases hfetch : f u with _ | soup0
        · rw [crawlStep_fetchFail f b m s u rest hfr hc hv hfetch] at h
          exact Or.inl ⟨rfl, by injection h with h; exact h.symm⟩
        · refine Or.inr ⟨soup0, rfl, ?_⟩
          by_cases htext : pageText (decomposeScriptStyle soup0) = ""
          · rw [crawlStep_emptyText f b m s u rest soup0 hfr hc hv hfetch htext] at h
            exact Or.inl ⟨htext, by injection h with h; exact h.symm⟩
          · by_cases hb : s.count + 1 < m
            · rw [crawlStep_emit f b m s u rest soup0 hfr hc hv hfetch htext hb] at h
              exact Or.inr (Or.inl ⟨htext, hb, by injection h with h; exact h.symm⟩)
            · rw [crawlStep_emitLast f b m s u rest soup0 hfr hc hv hfetch htext hb] at h
              exact Or.inr (Or.inr ⟨htext, hb, by injection h with h; exact h.symm⟩)
    · simp [crawlStep, hfr, hc] at h

/-! ## enqueueLinks lemmas -/

lemma enqueueLinks_nil (base : String) (vis fr : List String) :
    enqueueLinks base vis fr [] = fr := rfl

lemma enqueueLinks_cons (base : String) (vis fr : List String)
    (h : String) (t : List String) :
    enqueueLinks base vis fr (h :: t) =
      enqueueLinks base vis
        (if pyStartswith (resolveLink base h) base
            && !vis.contains (resolveLink base h)
            && !fr.contains (resolveLink base h) then
          fr ++ [resolveLink base h]
        else fr) t := rfl

/-- The link loop only appends: the previous frontier is kept unchanged at
the front. -/
lemma enqueueLinks_extends (base : String) (vis : List String)
    (hs : List String) : ∀ fr, ∃ news, enqueueLinks base vis fr hs = fr ++ news := by
  induction hs with
  | nil => exact fun fr => ⟨[], by simp [enqueueLinks_nil]⟩
  | cons h t ih =>
    intro fr
    rw [enqueueLinks_cons]
    by_cases hcond : pyStartswith (resolveLink base h) base
        && !vis.contains (resolveLink base h)
        && !fr.contains (resolveLink base h)
    · rw [if_pos hcond]
      obtain ⟨news, hnews⟩ := ih (fr ++ [resolveLink base h])
      exact ⟨resolveLink base h :: news, by rw [hnews]; simp⟩
    · rw [if_neg hcond]
      exact ih fr

/-- `contains = false` is non-membership (strings have a lawful `BEq`). -/
lemma contains_false_iff (l : List String) (a : String) :
    l.contains a = false ↔ a ∉ l := by
  constructor
  · intro h hmem
    have h1 : List.elem a l = true := List.elem_iff.mpr hmem
    have h2 : List.elem a l = false := h
    rw [h2] at h1
    cases h1
  · intro h
    cases hc : l.contains a
    · rfl
    · exact absurd (List.elem_iff.mp hc) h

/-- Membership after the link loop: exactly the old frontier plus the
resolved, in-scope, unvisited links. -/
lemma enqueueLinks_mem (base : String) (vis : List String) (hs : List String) :
    ∀ fr w, w ∈ enqueueLinks base vis fr hs ↔
      w ∈ fr ∨ ∃ h ∈ hs, w = resolveLink base h ∧
        pyStartswith w base = true ∧ vis.contains w = false := by
  induction hs with
  | nil => simp [enqueueLinks_nil]
  | cons h t ih =>
    intro fr w
    rw [enqueueLinks_cons]
    by_cases hcond : pyStartswith (resolveLink base h) base
        && !vis.contains (resolveLink base h)
        && !fr.contains (resolveLink base h)
    · rw [if_pos hcond]
      rw [ih]
      simp only [Bool.and_eq_true, Bool.not_eq_true'] at hcond
      obtain ⟨⟨hscope, hvis⟩, hfrc⟩ := hcond
      constructor
      · rintro (hw | ⟨h', hh', rest⟩)
        · rcases List.mem_append.1 hw with hw | hw
          · exact Or.inl hw
          · rcases List.mem_singleton.1 hw with rfl
            exact Or.inr ⟨h, List.mem_cons_self h t, rfl, hscope, hvis⟩
        · exact Or.inr ⟨h', List.mem_cons_of_mem h hh', rest⟩
      · rintro (hw | ⟨h', hh', hw, hsc, hv⟩)
        · exact Or.inl (List.mem_append_left _ hw)
        · rcases List.mem_cons.1 hh' with rfl | hh'
          · exact Or.inl (List.mem_append_right _ (by simp [hw]))
          · exact Or.inr ⟨h', hh', hw, hsc, hv⟩
    · rw [if_neg hcond]
      rw [ih]
      constructor
      · rintro (hw | ⟨h', hh', rest⟩)
        · exact Or.inl hw
        · exact Or.inr ⟨h', List.mem_cons_of_mem h hh', rest⟩
      · rintro (hw | ⟨h', hh', hw, hsc, hv⟩)
        · exact Or.inl hw
        · rcases List.mem_cons.1 hh' with rfl | hh'
          · -- the enqueue test failed although the link is in scope and
            -- unvisited: the link must already be queued
            subst hw
            by_contra hnot
            push_neg at hnot
            obtain ⟨hnotfr, -⟩ := hnot
            exact hcond (by
              simp only [Bool.and_eq_true, Bool.not_eq_true']
              exact ⟨⟨hsc, hv⟩, (contains_false_iff fr _).2 hnotfr⟩)
          · exact Or.inr ⟨h', hh', hw, hsc, hv⟩

/-- The link loop preserves absence of duplicates in the frontier. -/
lemma enqueueLinks_nodup (base : String) (vis : List String) (hs : List String) :
    ∀ fr, fr.Nodup → (enqueueLinks base vis fr hs).Nodup := by
  induction hs with
  | nil => intro fr hfr; simpa [enqueueLinks_nil] using hfr
  | cons h t ih =>
    intro fr hfr
    rw [enqueueLinks_cons]
    by_cases hcond : pyStartswith (resolveLink base h) base
        && !vis.contains (resolveLink base h)
        && !fr.contains (resolveLink base h)
    · rw [if_pos hcond]
      refine ih _ ?_
      simp only [Bool.and_eq_true, Bool.not_eq_true'] at hcond
      have hnot := (contains_false_iff fr _).1 hcond.2
      simp [List.nodup_append, hfr, hnot]
    · rw [if_neg hcond]
      exact ih fr hfr

/-- `contains = true` is membership. -/
lemma contains_true_iff (l : List String) (a : String) :
    l.contains a = true ↔ a ∈ l :=
  List.elem_iff

/-! ## Crawl loop invariants -/

/-- The counter never exceeds the page budget. -/
lemma crawlLoop_count_le (f : String → Option (List HNode)) (b : String)
    (m : Nat) (s : CrawlState) (h : s.count ≤ m) :
    (crawlLoop f b m s).count ≤ m := by
  induction s using crawlLoop.induct f b m with
  | case1 s hnone => rwa [crawlLoop_none f b m s hnone]
  | case2 s s' hsome ih =>
    rw [crawlLoop_some f b m s s' hsome]
    obtain ⟨u, rest, hfr, hc, hcase⟩ := crawlStep_spec f b m s s' hsome
    apply ih
    rcases hcase with ⟨-, rfl⟩ | ⟨-, hcase⟩
    · exact h
    · rcases hcase with ⟨-, rfl⟩ | ⟨soup0, -, hcase⟩
      · exact hc
      · rcases hcase with ⟨-, rfl⟩ | ⟨-, -, rfl⟩ | ⟨-, -, rfl⟩ <;> exact hc

/-- Pages attempted equal the visited-set growth: the visited list length
stays below the counter. -/
lemma crawlLoop_visited_le_count (f : String → Option (List HNode)) (b : String)
    (m : Nat) (s : CrawlState) (h : s.visited.length ≤ s.count) :
    (crawlLoop f b m s).visited.length ≤ (crawlLoop f b m s).count := by
  induction s using crawlLoop.induct f b m with
  | case1 s hnone => rwa [crawlLoop_none f b m s hnone]
  | case2 s s' hsome ih =>
    rw [crawlLoop_some f b m s s' hsome]
    obtain ⟨u, rest, hfr, hc, hcase⟩ := crawlStep_spec f b m s s' hsome
    apply ih
    rcases hcase with ⟨-, rfl⟩ | ⟨-, hcase⟩
    · exact h
    · rcases hcase with ⟨-, rfl⟩ | ⟨soup0, -, hcase⟩
      · simpa using Nat.succ_le_succ h
      · rcases hcase with ⟨-, rfl⟩ | ⟨-, -, rfl⟩ | ⟨-, -, rfl⟩ <;>
          simpa using Nat.succ_le_succ h

/-- URLs once visited stay visited. -/
lemma crawlLoop_visited_mono (f : String → Option (List HNode)) (b : String)
    (m : Nat) (s : CrawlState) (w : String)
    (h : s.visited.contains w = true) :
    (crawlLoop f b m s).visited.contains w = true := by
  induction s using crawlLoop.induct f b m with
  | case1 s hnone => rwa [crawlLoop_none f b m s hnone]
  | case2 s s' hsome ih =>
    rw [crawlLoop_some f b m s s' hsome]
    obtain ⟨u, rest, hfr, hc, hcase⟩ := crawlStep_spec f b m s s' hsome
    apply ih
    have hcons : (u :: s.visited).contains w = true :=
      (contains_true_iff _ _).2
        (List.mem_cons_of_mem u ((contains_true_iff _ _).1 h))
    rcases hcase with ⟨-, rfl⟩ | ⟨-, hcase⟩
    · exact h
    · rcases hcase with ⟨-, rfl⟩ | ⟨soup0, -, hcase⟩
      · exact hcons
      · rcases hcase with ⟨-, rfl⟩ | ⟨-, -, rfl⟩ | ⟨-, -, rfl⟩ <;> exact hcons

/-- The loop only appends documents, and every appended document belongs to
a URL that was not yet visited when the loop was entered. -/
lemma crawlLoop_docs_extend (f : String → Option (List HNode)) (b : String)
    (m : Nat) (s : CrawlState) :
    ∃ newdocs, (crawlLoop f b m s).documents = s.documents ++ newdocs ∧
      ∀ d ∈ newdocs, s.visited.contains d.url = false := by
  induction s using crawlLoop.induct f b m with
  | case1 s hnone => exact ⟨[], by rw [crawlLoop_none f b m s hnone]; simp, by simp⟩
  | case2 s s' hsome ih =>
    rw [crawlLoop_some f b m s s' hsome]
    obtain ⟨u, rest, hfr, hc, hcase⟩ := crawlStep_spec f b m s s' hsome
    obtain ⟨newdocs, hdocs, hnew⟩ := ih
    have hdrop : ∀ d : Doc, (u :: s.visited).contains d.url = false →
        s.visited.contains d.url = false := by
      intro d hd
      rw [contains_false_iff] at hd ⊢
      exact fun hmem => hd (List.mem_cons_of_mem u hmem)
    rcases hcase with ⟨-, rfl⟩ | ⟨hv, hcase⟩
    · exact ⟨newdocs, by simpa using hdocs, fun d hd => by simpa using hnew d hd⟩
    · rcases hcase with ⟨-, rfl⟩ | ⟨soup0, -, hcase⟩
      · exact ⟨newdocs, by simpa using hdocs,
          fun d hd => hdrop d (by simpa using hnew d hd)⟩
      · rcases hcase with ⟨-, rfl⟩ | ⟨-, -, rfl⟩ | ⟨-, -, rfl⟩
        · exact ⟨newdocs, by simpa using hdocs,
            fun d hd => hdrop d (by simpa using hnew d hd)⟩
        · refine ⟨⟨u, pageTitle (decomposeScriptStyle soup0) u,
              pageText (decomposeScriptStyle soup0)⟩ :: newdocs, ?_, ?_⟩
          · simpa using hdocs
          · intro d hd
            rcases List.mem_cons.1 hd with rfl | hd
            · exact hv
            · exact hdrop d (by simpa using hnew d hd)
        · refine ⟨⟨u, pageTitle (decomposeScriptStyle soup0) u,
              pageText (decomposeScriptStyle soup0)⟩ :: newdocs, ?_, ?_⟩
          · simpa using hdocs
          · intro d hd
            rcases List.mem_cons.1 hd with rfl | hd
            · exact hv
            · exact hdrop d (by simpa using hnew d hd)

/-- Documents with non-empty text are preserved and only such documents are
appended. -/
lemma crawlLoop_text_ne (f : String → Option (List HNode)) (b : String)
    (m : Nat) (s : CrawlState) (h : ∀ d ∈ s.documents, d.text ≠ "") :
    ∀ d ∈ (crawlLoop f b m s).documents, d.text ≠ "" := by
  induction s using crawlLoop.induct f b m with
  | case1 s hnone => rw [crawlLoop_none f b m s hnone]; exact h
  | case2 s s' hsome ih =>
    rw [crawlLoop_some f b m s s' hsome]
    obtain ⟨u, rest, hfr, hc, hcase⟩ := crawlStep_spec f b m s s' hsome
    apply ih
    rcases hcase with ⟨-, rfl⟩ | ⟨hv, hcase⟩
    · exact h
    · rcases hcase with ⟨-, rfl⟩ | ⟨soup0, -, hcase⟩
      · exact h
      · rcases hcase with ⟨-, rfl⟩ | ⟨ht, -, rfl⟩ | ⟨ht, -, rfl⟩ <;>
          first
          | exact h
          | · intro d hd
              have hd' : d ∈ s.documents ∨
                  d = ⟨u, pageTitle (decomposeScriptStyle soup0) u,
                        pageText (decomposeScriptStyle soup0)⟩ := by simpa using hd
              rcases hd' with hd | rfl
              · exact h d hd
              · exact ht

/-- Emitted URLs stay distinct: every emitted document's URL is in the
visited set, and a URL is only emitted when it was unvisited. -/
lemma crawlLoop_urls_nodup (f : String → Option (List HNode)) (b : String)
    (m : Nat) (s : CrawlState)
    (h1 : (s.documents.map Doc.url).Nodup)
    (h2 : ∀ d ∈ s.documents, s.visited.contains d.url = true) :
    ((crawlLoop f b m s).documents.map Doc.url).Nodup ∧
      ∀ d ∈ (crawlLoop f b m s).documents,
        (crawlLoop f b m s).visited.contains d.url = true := by
  induction s using crawlLoop.induct f b m with
  | case1 s hnone => rw [crawlLoop_none f b m s hnone]; exact ⟨h1, h2⟩
  | case2 s s' hsome ih =>
    rw [crawlLoop_some f b m s s' hsome]
    obtain ⟨u, rest, hfr, hc, hcase⟩ := crawlStep_spec f b m s s' hsome
    have hlift : ∀ d : Doc, s.visited.contains d.url = true →
        (u :: s.visited).contains d.url = true := fun d hd =>
      (contains_true_iff _ _).2
        (List.mem_cons_of_mem u ((contains_true_iff _ _).1 hd))
    rcases hcase with ⟨-, rfl⟩ | ⟨hv, hcase⟩
    · exact ih h1 h2
    · rcases hcase with ⟨-, rfl⟩ | ⟨soup0, -, hcase⟩
      · exact ih (by simpa using h1) (fun d hd => hlift d (h2 d (by simpa using hd)))
      · have hu_not : u ∉ s.documents.map Doc.url := by
          intro hmem
          obtain ⟨d, hd, hdu⟩ := List.mem_map.1 hmem
          have := h2 d hd
          rw [hdu] at this
          rw [this] at hv
          cases hv
        have hmem_new : (u :: s.visited).contains u = true :=
          (contains_true_iff _ _).2 (List.mem_cons_self u _)
        rcases hcase with ⟨-, rfl⟩ | ⟨ht, -, rfl⟩ | ⟨ht, -, rfl⟩
        · exact ih (by simpa using h1) (fun d hd => hlift d (h2 d (by simpa using hd)))
        · refine ih ?_ ?_
          · simpa [List.nodup_append, h1] using hu_not
          · intro d hd
            have hd' : d ∈ s.documents ∨
                d = ⟨u, pageTitle (decomposeScriptStyle soup0) u,
                      pageText (decomposeScriptStyle soup0)⟩ := by simpa using hd
            rcases hd' with hd | rfl
            · exact hlift d (h2 d hd)
            · exact hmem_new
        · refine ih ?_ ?_
          · simpa [List.nodup_append, h1] using hu_not
          · intro d hd
            have hd' : d ∈ s.documents ∨
                d = ⟨u, pageTitle (decomposeScriptStyle soup0) u,
                      pageText (decomposeScriptStyle soup0)⟩ := by simpa using hd
            rcases hd' with hd | rfl
            · exact hlift d (h2 d hd)
            · exact hmem_new


/-- Processing a leading block of fetchable, unvisited, text-bearing
frontier URLs emits exactly one document per URL, in frontier order, before
anything else is emitted; the block ends up visited. -/
lemma crawlLoop_block (f : String → Option (List HNode)) (b : String) (m : Nat) :
    ∀ (fr1 : List String) (docs : List Doc) (fr2 vis : List String) (c : Nat),
      fr1.Nodup →
      (∀ u ∈ fr1, vis.contains u = false) →
      (∀ u ∈ fr1, ∃ s0, f u = some s0 ∧ pageText (decomposeScriptStyle s0) ≠ "") →
      c + fr1.length ≤ m →
      ∃ fr' vis',
        crawlLoop f b m ⟨docs, fr1 ++ fr2, vis, c⟩ =
          crawlLoop f b m ⟨docs ++ fr1.map (docOf f), fr', vis', c + fr1.length⟩ ∧
        (∀ w, vis.contains w = true → vis'.contains w = true) ∧
        (∀ w ∈ fr1, vis'.contains w = true) := by
  intro fr1
  induction fr1 with
  | nil =>
    intro docs fr2 vis c _ _ _ _
    exact ⟨fr2, vis, by simp, fun w hw => hw, by simp⟩
  | cons u fr1' ih =>
    intro docs fr2 vis c hnodup hunvis hok hbudget
    obtain ⟨s0, hfetch, htext⟩ := hok u (List.mem_cons_self u fr1')
    have hvu : vis.contains u = false := hunvis u (List.mem_cons_self u fr1')
    have hc : c < m := by
      simp only [List.length_cons] at hbudget
      omega
    have hdoc : docOf f u =
        ⟨u, pageTitle (decomposeScriptStyle s0) u,
          pageText (decomposeScriptStyle s0)⟩ := by
      simp [docOf, hfetch]
    have hliftv : ∀ w, vis.contains w = true → (u :: vis).contains w = true :=
      fun w hw => (contains_true_iff _ _).2
        (List.mem_cons_of_mem u ((contains_true_iff _ _).1 hw))
    have huin : (u :: vis).contains u = true :=
      (contains_true_iff _ _).2 (List.mem_cons_self u _)
    by_cases hb : c + 1 < m
    · have hstep := crawlStep_emit f b m ⟨docs, u :: (fr1' ++ fr2), vis, c⟩
        u (fr1' ++ fr2) s0 rfl hc hvu hfetch htext hb
      obtain ⟨news, hnews⟩ := enqueueLinks_extends b (u :: vis)
        (forestHrefs (decomposeScriptStyle s0)) (fr1' ++ fr2)
      have hnodup' : fr1'.Nodup := (List.nodup_cons.1 hnodup).2
      have hnotmem : u ∉ fr1' := (List.nodup_cons.1 hnodup).1
      have hunvis' : ∀ w ∈ fr1', (u :: vis).contains w = false := by
        intro w hw
        rw [contains_false_iff]
        intro hmem
        rcases List.mem_cons.1 hmem with rfl | hmem
        · exact hnotmem hw
        · exact (contains_false_iff vis w).1
            (hunvis w (List.mem_cons_of_mem u hw)) hmem
      have hok' : ∀ w ∈ fr1', ∃ s0, f w = some s0 ∧
          pageText (decomposeScriptStyle s0) ≠ "" :=
        fun w hw => hok w (List.mem_cons_of_mem u hw)
      have hbudget' : (c + 1) + fr1'.length ≤ m := by
        simp only [List.length_cons] at hbudget
        omega
      obtain ⟨fr', vis', heq, hmono, hfr1'⟩ :=
        ih (docs ++ [docOf f u]) (fr2 ++ news) (u :: vis) (c + 1)
          hnodup' hunvis' hok' hbudget'
      refine ⟨fr', vis', ?_, ?_, ?_⟩
      · rw [show ((u :: fr1') ++ fr2 : List String) = u :: (fr1' ++ fr2) from rfl]
        rw [crawlLoop_some f b m _ _ hstep]
        have hfr_eq : enqueueLinks b (u :: vis) (fr1' ++ fr2)
            (forestHrefs (decomposeScriptStyle s0)) = fr1' ++ (fr2 ++ news) := by
          rw [hnews, List.append_assoc]
        rw [show (⟨docs ++ [(⟨u, pageTitle (decomposeScriptStyle s0) u,
              pageText (decomposeScriptStyle s0)⟩ : Doc)],
            enqueueLinks b (u :: vis) (fr1' ++ fr2)
              (forestHrefs (decomposeScriptStyle s0)),
            u :: vis, c + 1⟩ : CrawlState) =
          ⟨docs ++ [docOf f u], fr1' ++ (fr2 ++ news), u :: vis, c + 1⟩ by
            rw [hfr_eq, hdoc]]
        rw [heq]
        congr 1
        simp only [CrawlState.mk.injEq, List.map_cons, List.length_cons]
        refine ⟨by simp, trivial, trivial, by omega⟩
      · exact fun w hw => hmono w (hliftv w hw)
      · intro w hw
        rcases List.mem_cons.1 hw with rfl | hw
        · exact hmono w huin
        · exact hfr1' w hw
    · have hlen : fr1'.length = 0 := by
        simp only [List.length_cons] at hbudget
        omega
      have hfr1nil : fr1' = [] := List.length_eq_zero.1 hlen
      subst hfr1nil
      have hstep := crawlStep_emitLast f b m ⟨docs, u :: fr2, vis, c⟩
        u fr2 s0 rfl hc hvu hfetch htext hb
      refine ⟨fr2, u :: vis, ?_, fun w hw => hliftv w hw, ?_⟩
      · rw [show ((u :: []) ++ fr2 : List String) = u :: fr2 from rfl]
        rw [crawlLoop_some f b m _ _ hstep]
        congr 1
        simp only [CrawlState.mk.injEq, List.map_cons, List.map_nil,
          List.length_cons, List.length_nil]
        refine ⟨by simp [hdoc], trivial, trivial, by simp⟩
      · intro w hw
        rcases List.mem_cons.1 hw with rfl | hw
        · exact huin
        · cases hw

/-! ## Remaining shared helpers -/

lemma docOf_url (f : String → Option (List HNode)) (u : String) :
    (docOf f u).url = u := by
  unfold docOf
  cases f u <;> rfl

/-- A prefix determines the first character. -/
lemma pyStartswith_head (s p : String) (hp : pyStartswith s p = true)
    (c : Char) (hc : p.data.head? = some c) : s.data.head? = some c := by
  unfold pyStartswith at hp
  obtain ⟨t, ht⟩ := List.isPrefixOf_iff_prefix.mp hp
  cases hd : p.data with
  | nil => rw [hd] at hc; cases hc
  | cons a l =>
    rw [hd] at ht hc
    rw [← ht]
    simpa using hc

/-- On success `collect` returns exactly the final crawl state's document
list. -/
lemma collect_ok_documents (f : String → Option (List HNode)) (url : String)
    (m : Nat) (docs : List Doc) (h : collect f url m = Except.ok docs) :
    docs = (collectRun f url m).documents := by
  unfold collect at h
  by_cases he : (collectRun f url m).documents.isEmpty
  · simp [he] at h
  · simp only [he, Bool.false_eq_true, if_false, Except.ok.injEq] at h
    exact h.symm

mutual
/-- A node surviving decomposition contains no banned element. -/
lemma decomposeNode_clean (bad : List String) :
    (n : HNode) → ∀ n', decomposeNode bad n = some n' →
      nodeNoBanned bad n' = true
  | .txt s => fun n' h => by
    simp only [decomposeNode, Option.some.injEq] at h
    rw [← h]
    rfl
  | .elem t a c => fun n' h => by
    simp only [decomposeNode] at h
    by_cases hb : bad.contains t = true
    · rw [if_pos hb] at h
      cases h
    · rw [if_neg hb] at h
      injection h with h
      rw [← h]
      have hb' : bad.contains t = false := by
        cases hcc : bad.contains t
        · rfl
        · exact absurd hcc hb
      simp only [nodeNoBanned, hb', Bool.not_false, Bool.true_and]
      exact decomposeForest_clean bad c

/-- A decomposed forest contains no banned element. -/
lemma decomposeForest_clean (bad : List String) :
    (ns : List HNode) → forestNoBanned bad (decomposeForest bad ns) = true
  | [] => rfl
  | n :: rest => by
    simp only [decomposeForest]
    cases hd : decomposeNode bad n with
    | none => exact decomposeForest_clean bad rest
    | some n' =>
      simp only [forestNoBanned, Bool.and_eq_true]
      exact ⟨decomposeNode_clean bad n n' hd, decomposeForest_clean bad rest⟩
end

/-- One loop iteration preserves the frontier invariant. -/
lemma crawlInv_step (f : String → Option (List HNode)) (b : String) (m : Nat)
    (s s' : CrawlState) (hinv : crawlInv s)
    (h : crawlStep f b m s = some s') : crawlInv s' := by
  obtain ⟨u, rest, hfr, hc, hcase⟩ := crawlStep_spec f b m s s' h
  obtain ⟨hnodup, hdisj⟩ := hinv
  rw [hfr] at hnodup hdisj
  have hrest_nodup : rest.Nodup := (List.nodup_cons.1 hnodup).2
  have hurest : u ∉ rest := (List.nodup_cons.1 hnodup).1
  have hrest_disj : ∀ w ∈ rest, (u :: s.visited).contains w = false := by
    intro w hw
    rw [contains_false_iff]
    intro hmem
    rcases List.mem_cons.1 hmem with rfl | hmem
    · exact hurest hw
    · exact (contains_false_iff _ _).1 (hdisj w (List.mem_cons_of_mem u hw)) hmem
  rcases hcase with ⟨hv, rfl⟩ | ⟨hv, hcase⟩
  · rw [hdisj u (List.mem_cons_self u rest)] at hv
    cases hv
  · rcases hcase with ⟨-, rfl⟩ | ⟨soup0, -, hcase⟩
    · exact ⟨hrest_nodup, hrest_disj⟩
    · rcases hcase with ⟨-, rfl⟩ | ⟨-, -, rfl⟩ | ⟨-, -, rfl⟩
      · exact ⟨hrest_nodup, hrest_disj⟩
      · refine ⟨enqueueLinks_nodup b (u :: s.visited) _ rest hrest_nodup, ?_⟩
        intro w hw
        rcases (enqueueLinks_mem b (u :: s.visited) _ rest w).1 hw with
          hw | ⟨-, -, -, -, hv'⟩
        · exact hrest_disj w hw
        · exact hv'
      · exact ⟨hrest_nodup, hrest_disj⟩

/-- `collect` on the tree site: all four pages, in breadth-first order. -/
lemma collect_fetchTree_eval :
    collect fetchTree "http://t" 10 = Except.ok treeDocs := by
  have e0 : pyRstrip "http://t" '/' = "http://t" := rfl
  have h1 : crawlStep fetchTree "http://t" 10 ⟨[], ["http://t"], [], 0⟩
      = some ⟨[⟨"http://t", some "http://t", "root"⟩],
          ["http://t/a", "http://t/b"], ["http://t"], 1⟩ := by decide
  have h2 : crawlStep fetchTree "http://t" 10
      ⟨[⟨"http://t", some "http://t", "root"⟩],
        ["http://t/a", "http://t/b"], ["http://t"], 1⟩
      = some ⟨[⟨"http://t", some "http://t", "root"⟩,
          ⟨"http://t/a", some "http://t/a", "A"⟩],
          ["http://t/b", "http://t/a/x"], ["http://t/a", "http://t"], 2⟩ := by decide
  have h3 : crawlStep fetchTree "http://t" 10
      ⟨[⟨"http://t", some "http://t", "root"⟩,
          ⟨"http://t/a", some "http://t/a", "A"⟩],
        ["http://t/b", "http://t/a/x"], ["http://t/a", "http://t"], 2⟩
      = some ⟨[⟨"http://t", some "http://t", "root"⟩,
          ⟨"http://t/a", some "http://t/a", "A"⟩,
          ⟨"http://t/b", some "http://t/b", "B"⟩],
          ["http://t/a/x"], ["http://t/b", "http://t/a", "http://t"], 3⟩ := by decide
  have h4 : crawlStep fetchTree "http://t" 10
      ⟨[⟨"http://t", some "http://t", "root"⟩,
          ⟨"http://t/a", some "http://t/a", "A"⟩,
          ⟨"http://t/b", some "http://t/b", "B"⟩],
        ["http://t/a/x"], ["http://t/b", "http://t/a", "http://t"], 3⟩
      = some ⟨treeDocs, [], ["http://t/a/x", "http://t/b", "http://t/a", "http://t"], 4⟩ := by
    decide
  have h5 : crawlStep fetchTree "http://t" 10
      ⟨treeDocs, [], ["http://t/a/x", "http://t/b", "http://t/a", "http://t"], 4⟩
      = none := by decide
  simp only [collect, collectRun, e0, crawlLoop_some _ _ _ _ _ h1,
    crawlLoop_some _ _ _ _ _ h2, crawlLoop_some _ _ _ _ _ h3,
    crawlLoop_some _ _ _ _ _ h4, crawlLoop_none _ _ _ _ h5]
  rfl

/-! ## Claim theorems -/

/-- C1 (amended): when a fetched page is processed within budget, the link
loop runs only if the extracted text is non-empty; in that case every
hyperlink is resolved and each resolved in-scope URL not yet visited and
not already queued is appended at the back of the frontier in discovery
order; when the extracted text is empty no link is enqueued at all. -/
theorem crawl_enqueue_only_on_nonempty_text
    (f : String → Option (List HNode)) (b : String) (m : Nat) (s : CrawlState)
    (u : String) (rest : List String) (soup0 : List HNode)
    (hfr : s.frontier = u :: rest) (hv : s.visited.contains u = false)
    (hc : s.count < m) (hfetch : f u = some soup0) :
    (pageText (decomposeScriptStyle soup0) ≠ "" → s.count + 1 < m →
      crawlLoop f b m s = crawlLoop f b m
        ⟨s.documents ++ [⟨u, pageTitle (decomposeScriptStyle soup0) u,
            pageText (decomposeScriptStyle soup0)⟩],
          enqueueLinks b (u :: s.visited) rest
            (forestHrefs (decomposeScriptStyle soup0)),
          u :: s.visited, s.count + 1⟩) ∧
    (pageText (decomposeScriptStyle soup0) = "" →
      crawlLoop f b m s =
        crawlLoop f b m ⟨s.documents, rest, u :: s.visited, s.count + 1⟩) ∧
    (∃ news, enqueueLinks b (u :: s.visited) rest
        (forestHrefs (decomposeScriptStyle soup0)) = rest ++ news) ∧
    (∀ w, w ∈ enqueueLinks b (u :: s.visited) rest
        (forestHrefs (decomposeScriptStyle soup0)) ↔
      w ∈ rest ∨ ∃ h ∈ forestHrefs (decomposeScriptStyle soup0),
        w = resolveLink b h ∧ pyStartswith w b = true ∧
          (u :: s.visited).contains w = false) := by
  refine ⟨?_, ?_, ?_, ?_⟩
  · intro ht hb
    exact crawlLoop_some f b m s _
      (crawlStep_emit f b m s u rest soup0 hfr hc hv hfetch ht hb)
  · intro ht
    exact crawlLoop_some f b m s _
      (crawlStep_emptyText f b m s u rest soup0 hfr hc hv hfetch ht)
  · exact enqueueLinks_extends b (u :: s.visited) _ rest
  · exact fun w => enqueueLinks_mem b (u :: s.visited) _ rest w

/-- Witness for C1: the tree site's seed page, processed from the initial
state with budget 10, emits its document and enqueues its two links. -/
theorem crawl_enqueue_only_on_nonempty_text_witness :
    crawlLoop fetchTree "http://t" 10 ⟨[], ["http://t"], [], 0⟩ =
      crawlLoop fetchTree "http://t" 10
        ⟨[⟨"http://t", some "http://t", "root"⟩],
          ["http://t/a", "http://t/b"], ["http://t"], 1⟩ :=
  (crawl_enqueue_only_on_nonempty_text fetchTree "http://t" 10
      ⟨[], ["http://t"], [], 0⟩ "http://t" []
      [.elem "body" [] [.txt "root", .elem "a" [("href", "/a")] [],
        .elem "a" [("href", "/b")] []]]
      rfl rfl (by decide) rfl).1 (by decide) (by decide)

/-- C1 counterexample: the seed page of `fetchC1` carries a link to an
in-scope page with extractable text, the budget is far from exhausted, yet
because the seed's own extracted text is empty the link is never enqueued
and the crawl ends with no document at all (HTTP 400). Under the claim as
stated the link would be followed and a document produced. -/
theorem crawl_enqueue_regardless_of_text_cex :
    collect fetchC1 "http://a" 5 =
      Except.error (400, "Не удалось извлечь текст ни с одной страницы") ∧
    pageText (decomposeScriptStyle soupSeedC1) = "" ∧
    enqueueLinks "http://a" ["http://a"] []
      (forestHrefs (decomposeScriptStyle soupSeedC1)) = ["http://a/b"] ∧
    fetchC1 "http://a/b" = some soupPageB ∧
    pageText (decomposeScriptStyle soupPageB) = "hello" := by
  have e0 : pyRstrip "http://a" '/' = "http://a" := rfl
  have h1 : crawlStep fetchC1 "http://a" 5 ⟨[], ["http://a"], [], 0⟩
      = some ⟨[], [], ["http://a"], 1⟩ := by decide
  have h2 : crawlStep fetchC1 "http://a" 5 ⟨[], [], ["http://a"], 1⟩
      = none := by decide
  refine ⟨?_, rfl, rfl, rfl, rfl⟩
  simp only [collect, collectRun, e0, crawlLoop_some _ _ _ _ _ h1,
    crawlLoop_none _ _ _ _ h2]
  rfl

/-- C2 (code bug): when every page of the crawl fails, `WebCollector.collect`
raises the client error HTTP 400, but `DataCollectorService.collect_web`'s
bare `except Exception` catches that very `HTTPException` and re-raises it
as HTTP 500, so the caller receives a server-error signal instead of the
client-error signal. -/
theorem no_content_becomes_500_at_boundary :
    collect fetchFail "http://site.test" 5 =
      Except.error (400, "Не удалось извлечь текст ни с одной страницы") ∧
    collect_web fetchFail "http://site.test" 5 =
      Except.error (500, get_full_error) := by
  have e0 : pyRstrip "http://site.test" '/' = "http://site.test" := rfl
  have h1 : crawlStep fetchFail "http://site.test" 5
      ⟨[], ["http://site.test"], [], 0⟩
      = some ⟨[], [], ["http://site.test"], 1⟩ := by decide
  have h2 : crawlStep fetchFail "http://site.test" 5
      ⟨[], [], ["http://site.test"], 1⟩ = none := by decide
  have hc : collect fetchFail "http://site.test" 5 =
      Except.error (400, "Не удалось извлечь текст ни с одной страницы") := by
    simp only [collect, collectRun, e0, crawlLoop_some _ _ _ _ _ h1,
      crawlLoop_none _ _ _ _ h2]
    rfl
  exact ⟨hc, by rw [collect_web, hc]⟩

/-- C3: the counter (pages dequeued and attempted) never exceeds
`max_pages`, the visited set never grows beyond `max_pages` entries, and a
dequeued URL that is already visited is skipped without touching the
counter, documents or visited set. Termination of the loop on arbitrary
link graphs is witnessed by `crawlLoop` being a total function (accepted
with the lexicographic measure `(max_pages - count, frontier length)`). -/
theorem crawl_budget_respected
    (f : String → Option (List HNode)) (url : String) (m : Nat)
    (s : CrawlState) (u : String) (rest : List String)
    (hfr : s.frontier = u :: rest) (hv : s.visited.contains u = true)
    (hc : s.count < m) :
    (collectRun f url m).count ≤ m ∧
    (collectRun f url m).visited.length ≤ m ∧
    crawlLoop f (pyRstrip url '/') m s =
      crawlLoop f (pyRstrip url '/') m { s with frontier := rest } := by
  refine ⟨?_, ?_, ?_⟩
  · exact crawlLoop_count_le f (pyRstrip url '/') m ⟨[], [url], [], 0⟩
      (Nat.zero_le m)
  · have h1 := crawlLoop_visited_le_count f (pyRstrip url '/') m
      ⟨[], [url], [], 0⟩ (by simp)
    have h2 := crawlLoop_count_le f (pyRstrip url '/') m ⟨[], [url], [], 0⟩
      (Nat.zero_le m)
    exact le_trans h1 h2
  · exact crawlLoop_some _ _ _ _ _ (crawlStep_skip f (pyRstrip url '/') m s u rest hfr hc hv)

/-- Witness for C3 on the tree site, with a state whose frontier head is
already visited. -/
theorem crawl_budget_respected_witness :
    (collectRun fetchTree "http://t" 10).count ≤ 10 ∧
    (collectRun fetchTree "http://t" 10).visited.length ≤ 10 ∧
    crawlLoop fetchTree (pyRstrip "http://t" '/') 10
        ⟨[], ["http://t/a", "http://t/b"], ["http://t/a"], 1⟩ =
      crawlLoop fetchTree (pyRstrip "http://t" '/') 10
        ⟨[], ["http://t/b"], ["http://t/a"], 1⟩ :=
  crawl_budget_respected fetchTree "http://t" 10
    ⟨[], ["http://t/a", "http://t/b"], ["http://t/a"], 1⟩
    "http://t/a" ["http://t/b"] rfl (by decide) (by decide)

/-- C4: the four link-resolution rules, applied in the source's order, and
the enqueue-time acceptance test: a resolved URL enters the frontier iff it
is a string-prefix extension of `base_url` and is neither visited nor
already queued; rejected links are simply not appended (no error). -/
theorem link_resolution_rules_and_scope
    (base href : String) (vis fr hs : List String) :
    (pyStartswith href "/" = true → resolveLink base href = base ++ href) ∧
    (pyStartswith href "./" = true →
      resolveLink base href = base ++ pySliceFrom href 1) ∧
    (pyStartswith href "/" = false → pyStartswith href "./" = false →
      pyStartswith href "http://" = false → pyStartswith href "https://" = false →
      resolveLink base href = base ++ "/" ++ pyLstrip href '/') ∧
    (pyStartswith2 href "http://" "https://" = true →
      resolveLink base href = href) ∧
    (∀ w, w ∈ enqueueLinks base vis fr hs ↔
      w ∈ fr ∨ ∃ h ∈ hs, w = resolveLink base h ∧
        pyStartswith w base = true ∧ vis.contains w = false) := by
  refine ⟨?_, ?_, ?_, ?_, fun w => enqueueLinks_mem base vis hs fr w⟩
  · intro h1
    simp [resolveLink, h1]
  · intro h2
    have h1 : pyStartswith href "/" = false := by
      cases hq : pyStartswith href "/"
      · rfl
      · have ha := pyStartswith_head href "/" hq '/' rfl
        have hb := pyStartswith_head href "./" h2 '.' rfl
        rw [ha] at hb
        cases hb
    simp [resolveLink, h1, h2]
  · intro h1 h2 h3 h4
    simp [resolveLink, h1, h2, pyStartswith2, h3, h4]
  · intro h4
    have hhead : href.data.head? = some 'h' := by
      have h4' : pyStartswith href "http://" = true ∨
          pyStartswith href "https://" = true := by
        simpa [pyStartswith2] using h4
      rcases h4' with h | h
      · exact pyStartswith_head href "http://" h 'h' rfl
      · exact pyStartswith_head href "https://" h 'h' rfl
    have h1 : pyStartswith href "/" = false := by
      cases hq : pyStartswith href "/"
      · rfl
      · have := pyStartswith_head href "/" hq '/' rfl
        rw [hhead] at this
        cases this
    have h2 : pyStartswith href "./" = false := by
      cases hq : pyStartswith href "./"
      · rfl
      · have := pyStartswith_head href "./" hq '.' rfl
        rw [hhead] at this
        cases this
    simp [resolveLink, h1, h2, h4]

/-- Witness for C4: each resolution rule at a concrete href, and the scope
test on a concrete link set. -/
theorem link_resolution_rules_and_scope_witness :
    (resolveLink "http://a" "/b" = "http://a" ++ "/b") ∧
    (resolveLink "http://a" "./c" = "http://a" ++ pySliceFrom "./c" 1) ∧
    (resolveLink "http://a" "c/d" = "http://a" ++ "/" ++ pyLstrip "c/d" '/') ∧
    (resolveLink "http://a" "http://a/e" = "http://a/e") ∧
    ("http://a/b" ∈ enqueueLinks "http://a" [] [] ["/b", "http://x/y"] ↔
      "http://a/b" ∈ ([] : List String) ∨
        ∃ h ∈ ["/b", "http://x/y"], "http://a/b" = resolveLink "http://a" h ∧
          pyStartswith "http://a/b" "http://a" = true ∧
          ([] : List String).contains "http://a/b" = false) :=
  ⟨(link_resolution_rules_and_scope "http://a" "/b" [] [] []).1 (by decide),
   (link_resolution_rules_and_scope "http://a" "./c" [] [] []).2.1 (by decide),
   (link_resolution_rules_and_scope "http://a" "c/d" [] [] []).2.2.1
     (by decide) (by decide) (by decide) (by decide),
   (link_resolution_rules_and_scope "http://a" "http://a/e" [] [] []).2.2.2.1
     (by decide),
   (link_resolution_rules_and_scope "http://a" "x" [] []
     ["/b", "http://x/y"]).2.2.2.2 "http://a/b"⟩

/-- C5: every document returned by a successful crawl has non-empty text:
pages whose normalized extracted text is empty never produce a document. -/
theorem emitted_documents_have_nonempty_text
    (f : String → Option (List HNode)) (url : String) (m : Nat)
    (docs : List Doc) (h : collect f url m = Except.ok docs) :
    ∀ d ∈ docs, d.text ≠ "" := by
  have hdocs := collect_ok_documents f url m docs h
  intro d hd
  rw [hdocs] at hd
  exact crawlLoop_text_ne f (pyRstrip url '/') m ⟨[], [url], [], 0⟩
    (by simp) d hd

/-- Witness for C5 on the tree site. -/
theorem emitted_documents_have_nonempty_text_witness :
    (⟨"http://t", some "http://t", "root"⟩ : Doc).text ≠ "" :=
  emitted_documents_have_nonempty_text fetchTree "http://t" 10 treeDocs
    collect_fetchTree_eval ⟨"http://t", some "http://t", "root"⟩ (by decide)

/-- C6: no URL appears twice among the emitted documents — in the final
crawl state and hence in every successful `collect` result. -/
theorem emitted_urls_distinct
    (f : String → Option (List HNode)) (url : String) (m : Nat) :
    ((collectRun f url m).documents.map Doc.url).Nodup ∧
    (∀ docs, collect f url m = Except.ok docs → (docs.map Doc.url).Nodup) := by
  have h := crawlLoop_urls_nodup f (pyRstrip url '/') m ⟨[], [url], [], 0⟩
    (by simp) (by simp)
  refine ⟨h.1, ?_⟩
  intro docs hok
  rw [collect_ok_documents f url m docs hok]
  exact h.1

/-- Witness for C6 on the tree site. -/
theorem emitted_urls_distinct_witness :
    (treeDocs.map Doc.url).Nodup :=
  (emitted_urls_distinct fetchTree "http://t" 10).2 treeDocs
    collect_fetchTree_eval

/-- C7 (amended): the content region is chosen in fixed priority order —
first `article`, then `main`, then a `div` element whose class attribute
carries `content` (not an arbitrary element with that class); when all
three are absent the text is extracted from the page body, and an empty
string results when there is no body either; a page with no title element
gets the page URL as its title. -/
theorem content_region_priority_divclass (soup : List HNode) (url : String) :
    (∀ n, findForest (fun t _ => t == "article") soup = some n →
      mainContent soup = some n) ∧
    (findForest (fun t _ => t == "article") soup = none →
      ∀ n, findForest (fun t _ => t == "main") soup = some n →
        mainContent soup = some n) ∧
    (findForest (fun t _ => t == "article") soup = none →
      findForest (fun t _ => t == "main") soup = none →
      mainContent soup =
        findForest (fun t a => t == "div" && hasClass a "content") soup) ∧
    (mainContent soup = none →
      ∀ bn, findForest (fun t _ => t == "body") soup = some bn →
        pageText soup = normalizeWs (getText bn)) ∧
    (mainContent soup = none →
      findForest (fun t _ => t == "body") soup = none → pageText soup = "") ∧
    (findForest (fun t _ => t == "title") soup = none →
      pageTitle soup url = some url) := by
  refine ⟨?_, ?_, ?_, ?_, ?_, ?_⟩
  · intro n h
    simp [mainContent, h]
  · intro ha n h
    simp [mainContent, ha, h]
  · intro ha hm
    simp [mainContent, ha, hm]
  · intro hmc bn hb
    simp [pageText, hmc, hb]
  · intro hmc hb
    simp [pageText, hmc, hb]
    rfl
  · intro ht
    simp [pageTitle, ht]

/-- Witness for C7 on concrete pages exercising every branch. -/
theorem content_region_priority_divclass_witness :
    (mainContent [.elem "article" [] [.txt "T"]] =
      some (.elem "article" [] [.txt "T"])) ∧
    (mainContent (decomposeScriptStyle soupC8) =
      some (.elem "main" [] [.txt "Hello world"])) ∧
    (mainContent soupC7 =
      findForest (fun t a => t == "div" && hasClass a "content") soupC7) ∧
    (pageText soupC7 =
      normalizeWs (getText (.elem "body" []
        [.elem "p" [("class", "content")] [.txt "P"],
         .elem "p" [] [.txt "Q"]]))) ∧
    (pageText [.txt "loose"] = "") ∧
    (pageTitle soupC7 "http://u" = some "http://u") :=
  ⟨(content_region_priority_divclass [.elem "article" [] [.txt "T"]] "u").1
      _ rfl,
   (content_region_priority_divclass (decomposeScriptStyle soupC8) "u").2.1
      rfl _ rfl,
   (content_region_priority_divclass soupC7 "u").2.2.1 rfl rfl,
   (content_region_priority_divclass soupC7 "u").2.2.2.1 rfl _ rfl,
   (content_region_priority_divclass [.txt "loose"] "u").2.2.2.2.1 rfl rfl,
   (content_region_priority_divclass soupC7 "http://u").2.2.2.2.2 rfl⟩

/-- C7 counterexample: on a page whose only `content`-classed element is a
`p`, the source's `find('div', class_='content')` chain selects nothing and
falls back to the full body (text `"P Q"`), while the claim's "element
whose class is exactly content" rule would select the `p` (text `"P"`). -/
theorem content_region_spec_class_cex :
    mainContent soupC7 = none ∧
    specClassContentRegion soupC7 =
      some (.elem "p" [("class", "content")] [.txt "P"]) ∧
    pageText soupC7 = "P Q" ∧
    getText (.elem "p" [("class", "content")] [.txt "P"]) = "P" :=
  ⟨rfl, rfl, rfl, rfl⟩

/-- C8: decomposition removes every script and style element from the tree
before extraction — no such element survives in any decomposed forest, so
their content cannot appear in any extracted text — and on the spec's
scenario markup `<script>alert(1)</script><main>Hello world</main>` the
extracted text is exactly `"Hello world"`. -/
theorem script_style_removed_entirely :
    (∀ bad ns, forestNoBanned bad (decomposeForest bad ns) = true) ∧
    pageText (decomposeScriptStyle soupC8) = "Hello world" :=
  ⟨fun bad ns => decomposeForest_clean bad ns, rfl⟩

/-- C9: in a crawl whose seed page extracts text and whose distance-1 pages
(the URLs enqueued while the seed is processed) all fetch and extract text,
with a budget covering the seed and all of distance 1, every distance-1
document appears in the output strictly before any document for a URL that
is neither the seed nor at distance 1 — in particular before every
distance-2 page of a tree-shaped site. -/
theorem level1_docs_precede_deeper_docs
    (f : String → Option (List HNode)) (url : String) (m : Nat)
    (soup0 : List HNode) (docs : List Doc) (u1 u2 : String)
    (hfetch : f url = some soup0)
    (htext : pageText (decomposeScriptStyle soup0) ≠ "")
    (hok : ∀ u ∈ level1 f url, ∃ s0, f u = some s0 ∧
      pageText (decomposeScriptStyle s0) ≠ "")
    (hm : 1 + (level1 f url).length ≤ m)
    (hcollect : collect f url m = Except.ok docs)
    (hu1 : u1 ∈ level1 f url)
    (hu2 : u2 ∈ docs.map Doc.url)
    (hu2' : u2 ∉ url :: level1 f url) :
    (docs.map Doc.url).indexOf u1 < (docs.map Doc.url).indexOf u2 := by
  have hlevel1 : level1 f url = enqueueLinks (pyRstrip url '/') [url] []
      (forestHrefs (decomposeScriptStyle soup0)) := by
    simp [level1, hfetch]
  have h0m : 0 < m := by omega
  -- one loop iteration: the seed is emitted and the distance-1 URLs queued
  have heq1 : crawlLoop f (pyRstrip url '/') m ⟨[], [url], [], 0⟩ =
      crawlLoop f (pyRstrip url '/') m
        ⟨[⟨url, pageTitle (decomposeScriptStyle soup0) url,
            pageText (decomposeScriptStyle soup0)⟩],
          level1 f url, [url], 1⟩ := by
    by_cases h1m : 1 < m
    · have hstep := crawlStep_emit f (pyRstrip url '/') m ⟨[], [url], [], 0⟩
        url [] soup0 rfl h0m rfl hfetch htext h1m
      exact (crawlLoop_some _ _ _ _ _ hstep).trans (by rw [hlevel1]; rfl)
    · have hLnil : level1 f url = [] := List.length_eq_zero.1 (by omega)
      have hstep := crawlStep_emitLast f (pyRstrip url '/') m ⟨[], [url], [], 0⟩
        url [] soup0 rfl h0m rfl hfetch htext (by omega)
      exact (crawlLoop_some _ _ _ _ _ hstep).trans (by rw [hLnil]; rfl)
  -- the distance-1 block is processed next, in order
  have hnodupL : (level1 f url).Nodup := by
    rw [hlevel1]
    exact enqueueLinks_nodup _ _ _ [] List.nodup_nil
  have hunvisL : ∀ u ∈ level1 f url, ([url] : List String).contains u = false := by
    intro u hu
    rw [hlevel1] at hu
    rcases (enqueueLinks_mem _ _ _ [] u).1 hu with h | ⟨-, -, -, -, hv⟩
    · cases h
    · exact hv
  obtain ⟨fr', vis', heq2, -, -⟩ := crawlLoop_block f (pyRstrip url '/') m
    (level1 f url)
    [⟨url, pageTitle (decomposeScriptStyle soup0) url,
        pageText (decomposeScriptStyle soup0)⟩]
    [] [url] 1 hnodupL hunvisL hok hm
  rw [List.append_nil] at heq2
  -- everything that follows is only appended
  obtain ⟨newdocs, hdocs, -⟩ := crawlLoop_docs_extend f (pyRstrip url '/') m
    ⟨[⟨url, pageTitle (decomposeScriptStyle soup0) url,
        pageText (decomposeScriptStyle soup0)⟩] ++
        (level1 f url).map (docOf f), fr', vis', 1 + (level1 f url).length⟩
  have hdocs_eq : docs =
      ([⟨url, pageTitle (decomposeScriptStyle soup0) url,
          pageText (decomposeScriptStyle soup0)⟩] ++
        (level1 f url).map (docOf f)) ++ newdocs := by
    rw [collect_ok_documents f url m docs hcollect]
    show (crawlLoop f (pyRstrip url '/') m ⟨[], [url], [], 0⟩).documents = _
    rw [heq1, heq2, hdocs]
  have hmapL : ((level1 f url).map (docOf f)).map Doc.url = level1 f url := by
    rw [List.map_map]
    exact (List.map_congr_left (fun u _ => docOf_url f u)).trans
      (List.map_id (level1 f url))
  have hurls : docs.map Doc.url = (url :: level1 f url) ++ newdocs.map Doc.url := by
    rw [hdocs_eq, List.map_append, List.map_append, hmapL]
    rfl
  have hpre : u1 ∈ url :: level1 f url := List.mem_cons_of_mem url hu1
  rw [hurls]
  rw [List.indexOf_append_of_mem hpre, List.indexOf_append_of_not_mem hu2']
  have hlt : List.indexOf u1 (url :: level1 f url) <
      (url :: level1 f url).length := List.indexOf_lt_length.2 hpre
  omega

/-- Witness for C9 on the tree site: the distance-1 page `/a` is emitted
before the distance-2 page `/a/x`. -/
theorem level1_docs_precede_deeper_docs_witness :
    (treeDocs.map Doc.url).indexOf "http://t/a" <
      (treeDocs.map Doc.url).indexOf "http://t/a/x" := by
  have hl : level1 fetchTree "http://t" = ["http://t/a", "http://t/b"] := rfl
  refine level1_docs_precede_deeper_docs fetchTree "http://t" 10
    [.elem "body" [] [.txt "root", .elem "a" [("href", "/a")] [],
      .elem "a" [("href", "/b")] []]]
    treeDocs "http://t/a" "http://t/a/x" rfl (by decide) ?_ (by rw [hl]; decide)
    collect_fetchTree_eval (by rw [hl]; decide) (by decide) (by rw [hl]; decide)
  intro u hu
  rw [hl] at hu
  rcases List.mem_cons.1 hu with rfl | hu
  · exact ⟨_, rfl, by decide⟩
  · rcases List.mem_cons.1 hu with rfl | hu
    · exact ⟨_, rfl, by decide⟩
    · cases hu

/-- C10: in every state the loop reaches from the initial one, the frontier
has no duplicate URLs and is disjoint from the visited set; consequently
the dequeue-time visited check never fires — whenever the loop guard holds,
the head of the frontier is processed (not skipped): it is added to the
visited set and counted toward the budget. -/
theorem frontier_invariant_reachable
    (f : String → Option (List HNode)) (url b : String) (m : Nat)
    (s : CrawlState) (hreach : crawlReach f b m ⟨[], [url], [], 0⟩ s) :
    crawlInv s ∧
    (∀ u rest, s.frontier = u :: rest → s.count < m →
      ∃ s', crawlStep f b m s = some s' ∧
        s'.count = s.count + 1 ∧ s'.visited = u :: s.visited) := by
  have hinv : crawlInv s := by
    induction hreach with
    | refl =>
      refine ⟨List.nodup_singleton url, ?_⟩
      intro u hu
      rfl
    | tail _ hstep ih => exact crawlInv_step f b m _ _ ih hstep
  refine ⟨hinv, ?_⟩
  intro u rest hfr hc
  have hv : s.visited.contains u = false := by
    apply hinv.2
    rw [hfr]
    exact List.mem_cons_self u rest
  rcases hfetch : f u with _ | soup0
  · exact ⟨_, crawlStep_fetchFail f b m s u rest hfr hc hv hfetch, rfl, rfl⟩
  · by_cases htext : pageText (decomposeScriptStyle soup0) = ""
    · exact ⟨_, crawlStep_emptyText f b m s u rest soup0 hfr hc hv hfetch htext,
        rfl, rfl⟩
    · by_cases hb : s.count + 1 < m
      · exact ⟨_, crawlStep_emit f b m s u rest soup0 hfr hc hv hfetch htext hb,
          rfl, rfl⟩
      · exact ⟨_, crawlStep_emitLast f b m s u rest soup0 hfr hc hv hfetch htext hb,
          rfl, rfl⟩

/-- Witness for C10 at the initial state of the tree crawl. -/
theorem frontier_invariant_reachable_witness :
    crawlInv ⟨[], ["http://t"], [], 0⟩ ∧
    (∃ s', crawlStep fetchTree "http://t" 10 ⟨[], ["http://t"], [], 0⟩ = some s' ∧
      s'.count = 0 + 1 ∧ s'.visited = ["http://t"]) :=
  ⟨(frontier_invariant_reachable fetchTree "http://t" "http://t" 10
      ⟨[], ["http://t"], [], 0⟩ Relation.ReflTransGen.refl).1,
   (frontier_invariant_reachable fetchTree "http://t" "http://t" 10
      ⟨[], ["http://t"], [], 0⟩ Relation.ReflTransGen.refl).2
     "http://t" [] rfl (by decide)⟩
